import Mathlib

/-!
Verification of the atomic_data / atomic_list repository specification.

The repository ships only the test harness
(`src/VisualStudio2015/atomic_data_test/atomic_list/atomic_list.cpp`); the
list engine itself (`atomic_list.h` / `atomic_data.h`) is not present under
`src/`.  The engine is therefore modelled from the specification (spec.md
sections 3, 4.2, 4.3, 4.4): each definition below that embeds engine code
carries a doc comment starting `Modelled from the spec:`.  The harness code
that is present under `src/` (the position walk, the constants, the counter)
is embedded directly from that source.

Concurrency is modelled by linearization: spec section 5 guarantees that each
cell's successful compare-and-swaps are totally ordered, so a concurrent run
is embedded as an arbitrary interleaved sequence of single-attempt operations,
each carrying a boolean that records whether its one compare-and-swap wins or
loses (a lost CAS is a contention failure).
-/

namespace AtomicList

/-- Modelled from the spec: section 9 fixes the element type of the harness
instantiation to `unsigned` (32-bit); payloads are stored reduced mod 2^32. -/
def uintMod : Nat := 2 ^ 32

/-- Modelled from the spec: section 3, a Node's atomically accessed state is
(payload, next-reference, marker).  The next-reference is represented by the
node's position in the chain list below, so a Node here is the payload
together with the lock marker set by `update`. -/
structure Node where
  val : Nat
  marker : Bool
deriving DecidableEq, Repr

/-- Modelled from the spec: section 3, the List is an ordered chain of live
nodes reachable from the head (`nodes`, head first) together with the atomic
logical size counter (`size`), updated in lockstep with structural changes. -/
structure ListState where
  nodes : List Node
  size : Nat
deriving DecidableEq, Repr

/-- The empty list: no reachable nodes, size zero. -/
def ListState.empty : ListState := ⟨[], 0⟩

/-- Traversal from `begin()` to the end sentinel: the payloads in chain
order. -/
def ListState.values (st : ListState) : List Nat := st.nodes.map Node.val

/-- Iterators are positions in the chain; a position at or past the length is
the end sentinel (spec section 4.3: `end` is an equality target, not a
dereferenceable node). -/
def ListState.isEnd (st : ListState) (pos : Nat) : Bool :=
  st.nodes.length ≤ pos

/-- Modelled from the spec: section 4.3 `push_front` — populate a fresh slot
with (value, next = old head) and install it as the new head; loops until its
head CAS succeeds, so it always succeeds; increments size.  Returns the state
and an iterator (position 0) to the new node. -/
def push_front (st : ListState) (v : Nat) : ListState × Nat :=
  (⟨⟨v % uintMod, false⟩ :: st.nodes, st.size + 1⟩, 0)

/-- Modelled from the spec: section 4.3 `insert_after_weak` — single attempt.
Fails (`none`) if the anchor `pos` is the end sentinel or the anchor's marker
indicates locked; otherwise attempts one compare-and-swap on the anchor's
cell splicing a fresh node after it.  `casOk` records whether that single CAS
wins or loses against contention; on a loss the reserved slot is released and
nothing changes.  On success the new node sits right after the anchor, size
is incremented, and an iterator to the new node (position `pos + 1`) is
returned. -/
def insert_after_weak (st : ListState) (pos : Nat) (v : Nat) (casOk : Bool) :
    Option (ListState × Nat) :=
  if h : pos < st.nodes.length then
    if (st.nodes.get ⟨pos, h⟩).marker then none
    else if casOk then
      some (⟨st.nodes.take (pos + 1) ++ ⟨v % uintMod, false⟩ :: st.nodes.drop (pos + 1),
             st.size + 1⟩, pos + 1)
    else none
  else none

/-- Modelled from the spec: section 4.3 `erase_after_weak` — single attempt.
Fails (`none`) if the anchor `pos` is the end sentinel, or the anchor's next
is the end sentinel (nothing to erase), or the target node's marker indicates
locked; otherwise attempts one compare-and-swap on the anchor's cell
unlinking the target.  `casOk` records whether the single CAS wins.  On
success size is decremented and an iterator to the node that followed the
removed one (now at position `pos + 1`) is returned. -/
def erase_after_weak (st : ListState) (pos : Nat) (casOk : Bool) :
    Option (ListState × Nat) :=
  if pos < st.nodes.length then
    if h : pos + 1 < st.nodes.length then
      if (st.nodes.get ⟨pos + 1, h⟩).marker then none
      else if casOk then
        some (⟨st.nodes.take (pos + 1) ++ st.nodes.drop (pos + 2), st.size - 1⟩, pos + 1)
      else none
    else none
  else none

/-- Modelled from the spec: section 4.3 `update` — retries its read-then-CAS
until it succeeds, so it always succeeds; atomically replaces the node's
payload with `v` (reduced mod 2^32) and sets the marker to locked.  On the
end sentinel there is no cell to update. -/
def update (st : ListState) (pos : Nat) (v : Nat) : ListState :=
  if pos < st.nodes.length then
    ⟨st.nodes.set pos ⟨v % uintMod, true⟩, st.size⟩
  else st

/-- One linearized structural operation of a concurrent run: a single-attempt
insert or erase, with its anchor position, payload (for inserts) and the
outcome of its one compare-and-swap. -/
inductive Op where
  | ins (pos : Nat) (v : Nat) (casOk : Bool)
  | del (pos : Nat) (casOk : Bool)
deriving DecidableEq, Repr

/-- Whether an operation is an insertion. -/
def Op.isIns : Op → Bool
  | .ins _ _ _ => true
  | .del _ _ => false

/-- Execute one operation: the resulting state and whether the operation
succeeded.  A failed weak operation leaves the state untouched. -/
def stepOp (st : ListState) (op : Op) : ListState × Bool :=
  match op with
  | .ins pos v casOk =>
    match insert_after_weak st pos v casOk with
    | some (st', _) => (st', true)
    | none => (st, false)
  | .del pos casOk =>
    match erase_after_weak st pos casOk with
    | some (st', _) => (st', true)
    | none => (st, false)

/-- Execute a linearized sequence of structural operations. -/
def run (st : ListState) : List Op → ListState
  | [] => st
  | op :: ops => run (stepOp st op).1 ops

/-- Number of successful insertions in a run. -/
def succIns (st : ListState) : List Op → Nat
  | [] => 0
  | op :: ops =>
    (if (stepOp st op).2 && op.isIns then 1 else 0) + succIns (stepOp st op).1 ops

/-- Number of successful erasures in a run. -/
def succDel (st : ListState) : List Op → Nat
  | [] => 0
  | op :: ops =>
    (if (stepOp st op).2 && !op.isIns then 1 else 0) + succDel (stepOp st op).1 ops

/-- Well-formedness: the atomic size counter agrees with the number of nodes
reachable from the head (spec section 3, quiescent consistency). -/
def sizeOk (st : ListState) : Prop := st.size = st.nodes.length

instance (st : ListState) : Decidable (sizeOk st) := by
  unfold sizeOk; infer_instance

/-! Helper lemmas: the spliced chains are one-node permutations of the old
chain, and the step/run functions preserve well-formedness, the locked-node
set, and the size accounting. -/

theorem splice_insert_perm (l : List Node) (k : Nat) (n : Node) :
    (l.take k ++ n :: l.drop k).Perm (n :: l) := by
  have h : (l.take k ++ n :: l.drop k).Perm (n :: (l.take k ++ l.drop k)) := List.perm_middle
  rwa [List.take_append_drop] at h

theorem splice_erase_perm (l : List Node) (k : Nat) (h : k < l.length) :
    l.Perm (l.get ⟨k, h⟩ :: (l.take k ++ l.drop (k + 1))) := by
  conv_lhs => rw [← List.take_append_drop k l, List.drop_eq_getElem_cons h]
  exact List.perm_middle

theorem insert_after_weak_some {st st' : ListState} {pos v it : Nat} {c : Bool}
    (h : insert_after_weak st pos v c = some (st', it)) :
    ∃ hp : pos < st.nodes.length,
      (st.nodes.get ⟨pos, hp⟩).marker = false ∧ c = true ∧
      st' = ⟨st.nodes.take (pos + 1) ++ ⟨v % uintMod, false⟩ :: st.nodes.drop (pos + 1),
              st.size + 1⟩ ∧ it = pos + 1 := by
  unfold insert_after_weak at h
  split at h
  · split at h
    · exact absurd h (by simp)
    · split at h
      · rename_i hp hm hc
        simp only [Option.some.injEq, Prod.mk.injEq] at h
        exact ⟨hp, by simpa using hm, hc, h.1.symm, h.2.symm⟩
      · exact absurd h (by simp)
  · exact absurd h (by simp)

theorem erase_after_weak_some {st st' : ListState} {pos it : Nat} {c : Bool}
    (h : erase_after_weak st pos c = some (st', it)) :
    ∃ hp : pos + 1 < st.nodes.length,
      pos < st.nodes.length ∧ (st.nodes.get ⟨pos + 1, hp⟩).marker = false ∧ c = true ∧
      st' = ⟨st.nodes.take (pos + 1) ++ st.nodes.drop (pos + 2), st.size - 1⟩ ∧
      it = pos + 1 := by
  unfold erase_after_weak at h
  split at h
  · split at h
    · split at h
      · exact absurd h (by simp)
      · split at h
        · rename_i hpos hp hm hc
          simp only [Option.some.injEq, Prod.mk.injEq] at h
          exact ⟨hp, hpos, by simpa using hm, hc, h.1.symm, h.2.symm⟩
        · exact absurd h (by simp)
    · exact absurd h (by simp)
  · exact absurd h (by simp)

theorem stepOp_fail {st : ListState} {op : Op} (h : (stepOp st op).2 = false) :
    (stepOp st op).1 = st := by
  cases op with
  | ins pos v c =>
    unfold stepOp at *
    cases hj : insert_after_weak st pos v c with
    | none => simp [hj]
    | some p => simp [hj] at h
  | del pos c =>
    unfold stepOp at *
    cases hj : erase_after_weak st pos c with
    | none => simp [hj]
    | some p => simp [hj] at h

theorem stepOp_ins_perm {st : ListState} {pos v : Nat} {c : Bool}
    (h : (stepOp st (.ins pos v c)).2 = true) :
    (stepOp st (.ins pos v c)).1.nodes.Perm ((⟨v % uintMod, false⟩ : Node) :: st.nodes) ∧
    (stepOp st (.ins pos v c)).1.size = st.size + 1 := by
  unfold stepOp at *
  cases hj : insert_after_weak st pos v c with
  | none => simp [hj] at h
  | some p =>
    obtain ⟨st1, it1⟩ := p
    obtain ⟨hp, hm, hc, hst, hit⟩ := insert_after_weak_some hj
    simp only [hj]
    constructor
    · rw [hst]; exact splice_insert_perm _ _ _
    · rw [hst]

theorem stepOp_del_perm {st : ListState} {pos : Nat} {c : Bool}
    (h : (stepOp st (.del pos c)).2 = true) :
    ∃ n : Node, n.marker = false ∧
      st.nodes.Perm (n :: (stepOp st (.del pos c)).1.nodes) ∧
      (stepOp st (.del pos c)).1.size = st.size - 1 := by
  unfold stepOp at *
  cases hj : erase_after_weak st pos c with
  | none => simp [hj] at h
  | some p =>
    obtain ⟨st1, it1⟩ := p
    obtain ⟨hp, hpos, hm, hc, hst, hit⟩ := erase_after_weak_some hj
    simp only [hj]
    refine ⟨st.nodes.get ⟨pos + 1, hp⟩, hm, ?_, ?_⟩
    · rw [hst]
      exact splice_erase_perm st.nodes (pos + 1) hp
    · rw [hst]

theorem stepOp_size {st : ListState} {op : Op} (hs : sizeOk st) :
    sizeOk (stepOp st op).1 ∧
    (stepOp st op).1.size + (if (stepOp st op).2 && !op.isIns then 1 else 0)
      = st.size + (if (stepOp st op).2 && op.isIns then 1 else 0) := by
  cases hb : (stepOp st op).2 with
  | false => rw [stepOp_fail hb]; simp [hs, hb]
  | true =>
    cases op with
    | ins pos v c =>
      obtain ⟨hperm, hsz⟩ := stepOp_ins_perm hb
      have hlen := hperm.length_eq
      simp only [List.length_cons] at hlen
      unfold sizeOk at *
      constructor
      · omega
      · simp [hb, Op.isIns]; omega
    | del pos c =>
      obtain ⟨n, hnm, hperm, hsz⟩ := stepOp_del_perm hb
      have hlen := hperm.length_eq
      simp only [List.length_cons] at hlen
      unfold sizeOk at *
      constructor
      · omega
      · simp [hb, Op.isIns]; omega

theorem run_size (ops : List Op) : ∀ st : ListState, sizeOk st →
    sizeOk (run st ops) ∧
    (run st ops).size + succDel st ops = st.size + succIns st ops := by
  induction ops with
  | nil => intro st hs; simp [run, succDel, succIns, hs]
  | cons op ops ih =>
    intro st hs
    obtain ⟨hs', heq⟩ := @stepOp_size st op hs
    obtain ⟨hs'', heq'⟩ := ih _ hs'
    simp only [run, succDel, succIns]
    exact ⟨hs'', by omega⟩

theorem stepOp_locked_mem {st : ListState} {op : Op} {n : Node}
    (hm : n.marker = true) (hmem : n ∈ st.nodes) : n ∈ (stepOp st op).1.nodes := by
  cases hb : (stepOp st op).2 with
  | false => rw [stepOp_fail hb]; exact hmem
  | true =>
    cases op with
    | ins pos v c =>
      obtain ⟨hperm, _⟩ := stepOp_ins_perm hb
      exact hperm.mem_iff.mpr (List.mem_cons_of_mem _ hmem)
    | del pos c =>
      obtain ⟨m, hmm, hperm, _⟩ := stepOp_del_perm hb
      rcases List.mem_cons.mp (hperm.mem_iff.mp hmem) with h1 | h2
      · rw [h1, hmm] at hm; exact absurd hm (by simp)
      · exact h2

theorem run_locked_mem (ops : List Op) : ∀ st : ListState, ∀ n : Node,
    n.marker = true → n ∈ st.nodes → n ∈ (run st ops).nodes := by
  induction ops with
  | nil => intro st n _ h; simpa [run] using h
  | cons op ops ih =>
    intro st n hm hmem
    exact ih _ n hm (stepOp_locked_mem hm hmem)

/-! The Versioned Cell primitive (spec sections 2, 4.2): data packed with a
change marker so that every successful compare-and-swap changes the cell. -/

/-- Modelled from the spec: sections 2 and 4.2 — the atomically accessed unit
packs the node data with a change marker (`version`), so that a successful
compare-and-swap is always observable by a holder of an older snapshot. -/
structure Cell (α : Type) where
  data : α
  version : Nat
deriving DecidableEq, Repr

/-- Modelled from the spec: section 4.2 `load` — a snapshot of the cell;
non-blocking, always succeeds. -/
def Cell.load {α : Type} (c : Cell α) : α × Nat := (c.data, c.version)

/-- Modelled from the spec: section 4.2 `compare_and_set` — succeeds only if
the cell's current state equals the expected snapshot bit-for-bit; on success
atomically installs the new data and advances the change marker; on failure
makes no change and reports failure. -/
def Cell.cas {α : Type} [DecidableEq α] (c : Cell α) (expected : α × Nat) (newData : α) :
    Cell α × Bool :=
  if c.load = expected then (⟨newData, c.version + 1⟩, true) else (c, false)

/-! The harness scenario (src/.../atomic_list.cpp): constants, the
preinserted list, the locked node, and the position-walk loop. -/

/-- Harness constant (atomic_list.cpp line 28): number of worker threads. -/
def threads_size : Nat := 16

/-- Harness constant (atomic_list.cpp line 29): weak-operation successes per
thread. -/
def iterationCount : Nat := 32768

/-- Harness constant (atomic_list.cpp line 30): number of preinserted
elements. -/
def list_size : Nat := 13

/-- The shared counter (atomic_list.cpp line 47): starts at 1 and is bumped
with fetch_add, so the k-th fetch (0-based) returns 1 + k, wrapping mod 2^32
as a std::atomic of unsigned would. -/
def counterValue (k : Nat) : Nat := (1 + k) % uintMod

/-- Total number of counter fetches in the harness: one per preinserted
element plus one per insert-thread iteration (a retried insert reuses its
value, so retries fetch nothing). -/
def totalFetches : Nat := list_size + (threads_size / 2) * iterationCount

/-- Conversion of a C++ signed int to unsigned (the harness calls
`update( -1 )` on a list of unsigned): reduction mod 2^32. -/
def toUint (i : Int) : Nat := (i % (uintMod : Int)).toNat

/-- The payload stored by the lock call `update( -1 )` at line 56. -/
def lockedPayload : Nat := toUint (-1)

/-- The list after the preinsertion loop (atomic_list.cpp lines 52-54):
push_front of the counter values 1..13. -/
def preinserted : ListState :=
  (List.range list_size).foldl (fun st k => (push_front st (k + 1)).1) ListState.empty

/-- The list at the start of the stress phase (atomic_list.cpp line 56):
the node at position 1 (`++begin()`) is updated with payload -1, which sets
its marker. -/
def setupState : ListState := update preinserted 1 lockedPayload

/-- The state after one successful insert at the head of `setupState`. -/
def setupIns : ListState := (stepOp setupState (Op.ins 0 5 true)).1

/-- A canonical linearized schedule with n successful insertions and n
successful erasures (each pair inserts a node after the head and immediately
erases it again). -/
def pairSeq : Nat → List Op
  | 0 => []
  | n + 1 => Op.ins 0 5 true :: Op.del 0 true :: pairSeq n

/-- push_front of a whole batch of values, in order (single-thread baseline,
spec section 8.5). -/
def pushAll (st : ListState) : List Nat → ListState
  | [] => st
  | v :: vs => pushAll (push_front st v).1 vs

/-- The position-walk loop of the harness (atomic_list.cpp lines 77-81 and
110-114): `for( uint i = 0; i < index && it_next; it = it_next++, ++i );`
over a list of length n.  `fuel` is the remaining iteration budget
(index - i); `it` and `itNext` are iterator positions, with position ≥ n
being the end sentinel (a false iterator). -/
def walkGo (n : Nat) : Nat → Nat → Nat → Nat
  | 0, it, _ => it
  | fuel + 1, it, itNext => if itNext < n then walkGo n fuel itNext (itNext + 1) else it

/-- The anchor position the harness passes to insert_after_weak /
erase_after_weak: both `it` and `it_next` start at `begin()` (position 0). -/
def walkAnchor (n index : Nat) : Nat := walkGo n index 0 0

/-- A successful compare-and-set installs the new data and advances the
change marker; its precondition is that the snapshot was current. -/
theorem cas_success_eq {α : Type} [DecidableEq α] {c : Cell α} {s : α × Nat} {a : α}
    (h : (c.cas s a).2 = true) : c.load = s ∧ (c.cas s a).1 = ⟨a, c.version + 1⟩ := by
  by_cases heq : c.load = s
  · exact ⟨heq, by simp [Cell.cas, heq]⟩
  · simp [Cell.cas, heq] at h

/-- Running the canonical schedule `pairSeq n` from the stress-test setup
returns to the setup state with exactly n successful insertions and n
successful erasures. -/
theorem pairSeq_facts (n : Nat) :
    run setupState (pairSeq n) = setupState ∧
    succIns setupState (pairSeq n) = n ∧ succDel setupState (pairSeq n) = n := by
  induction n with
  | zero => exact ⟨rfl, rfl, rfl⟩
  | succ k ih =>
    obtain ⟨hr, hi, hd⟩ := ih
    have h1 : stepOp setupState (Op.ins 0 5 true) = (setupIns, true) := by decide
    have h2 : stepOp setupIns (Op.del 0 true) = (setupState, true) := by decide
    refine ⟨?_, ?_, ?_⟩ <;>
      simp [pairSeq, run, succIns, succDel, h1, h2, Op.isIns, hr, hi, hd, Nat.add_comm]

/-- Traversal after a batch of push_front calls: the pushed values (reduced
mod 2^32), newest first, in front of the previous contents. -/
theorem pushAll_values (vs : List Nat) : ∀ st : ListState,
    (pushAll st vs).values = (vs.map (fun v => v % uintMod)).reverse ++ st.values := by
  induction vs with
  | nil => intro st; simp [pushAll]
  | cons v vs ih =>
    intro st
    show (pushAll (push_front st v).1 vs).values = _
    rw [ih]
    simp [push_front, ListState.values]

/-- The walk loop never stores an end-sentinel successor into the anchor:
its result is position 0 or a strictly in-range position. -/
theorem walkGo_valid (n fuel : Nat) : ∀ it itNext : Nat,
    it = 0 ∨ it < n → walkGo n fuel it itNext = 0 ∨ walkGo n fuel it itNext < n := by
  induction fuel with
  | zero => intro it itNext h; simpa [walkGo] using h
  | succ k ih =>
    intro it itNext h
    unfold walkGo
    split
    · exact ih _ _ (Or.inr (by assumption))
    · exact h

/-! Claim theorems. -/

/-- Claim C1 — Conservation: for every well-formed starting list of size S,
after any linearized sequence of weak structural operations in which the
number of successful insertions equals the number of successful erasures,
the final size() equals S. -/
theorem conservation (st : ListState) (ops : List Op) (hs : sizeOk st)
    (h : succIns st ops = succDel st ops) : (run st ops).size = st.size := by
  obtain ⟨-, heq⟩ := run_size ops st hs
  omega

/-- Starting state for the conservation witness: one unlocked node. -/
def w1st : ListState := ⟨[⟨1, false⟩], 1⟩

/-- Witness for C1: one successful insert and one successful erase leave the
size at its initial value. -/
theorem conservation_witness :
    sizeOk w1st ∧
    succIns w1st [Op.ins 0 2 true, Op.del 0 true]
      = succDel w1st [Op.ins 0 2 true, Op.del 0 true] ∧
    (run w1st [Op.ins 0 2 true, Op.del 0 true]).size = w1st.size :=
  ⟨by decide, by decide, conservation w1st [Op.ins 0 2 true, Op.del 0 true]
    (by decide) (by decide)⟩

/-- Claim C2 — Locked-node persistence: a node whose marker is set is never
removed by any sequence of weak insert or erase attempts; it remains
reachable by traversal and dereferenceable (its payload appears in the
traversal output) at the end of any run. -/
theorem locked_node_persistence (st : ListState) (ops : List Op) (n : Node)
    (hm : n.marker = true) (hmem : n ∈ st.nodes) :
    n ∈ (run st ops).nodes ∧ n.val ∈ (run st ops).values :=
  ⟨run_locked_mem ops st n hm hmem,
   List.mem_map_of_mem Node.val (run_locked_mem ops st n hm hmem)⟩

/-- Starting state for the locked-node witness: a locked node at position 1. -/
def w2st : ListState := ⟨[⟨1, false⟩, ⟨5, true⟩], 2⟩

/-- Witness for C2: under erase attempts aimed at the locked node, the node
survives. -/
theorem locked_node_persistence_witness :
    (⟨5, true⟩ : Node).marker = true ∧ (⟨5, true⟩ : Node) ∈ w2st.nodes ∧
    ((⟨5, true⟩ : Node) ∈ (run w2st [Op.del 0 true, Op.del 1 true]).nodes ∧
      (⟨5, true⟩ : Node).val ∈ (run w2st [Op.del 0 true, Op.del 1 true]).values) :=
  ⟨rfl, by decide,
   locked_node_persistence w2st [Op.del 0 true, Op.del 1 true] ⟨5, true⟩ rfl (by decide)⟩

/-- Claim C3 — Weak-operation atomicity: a failed insert_after_weak or
erase_after_weak leaves the list state unchanged, and a successful one moves
exactly one node between absent and present (the new chain is a one-node
extension, respectively one-node reduction, of the old chain as a
multiset). -/
theorem weak_op_atomicity (st : ListState) (op : Op) :
    ((stepOp st op).2 = false → (stepOp st op).1 = st) ∧
    ((stepOp st op).2 = true →
      ∃ n : Node,
        (op.isIns = true ∧ (stepOp st op).1.nodes.Perm (n :: st.nodes)) ∨
        (op.isIns = false ∧ st.nodes.Perm (n :: (stepOp st op).1.nodes))) := by
  refine ⟨stepOp_fail, ?_⟩
  intro hb
  cases op with
  | ins pos v c =>
    obtain ⟨hperm, -⟩ := stepOp_ins_perm hb
    exact ⟨⟨v % uintMod, false⟩, Or.inl ⟨rfl, hperm⟩⟩
  | del pos c =>
    obtain ⟨n, -, hperm, -⟩ := stepOp_del_perm hb
    exact ⟨n, Or.inr ⟨rfl, hperm⟩⟩

/-- Starting state for the atomicity witness. -/
def w3st : ListState := ⟨[⟨3, false⟩], 1⟩

/-- Witness for C3: a CAS-losing insert changes nothing, and a winning insert
adds exactly one node. -/
theorem weak_op_atomicity_witness :
    ((stepOp w3st (Op.ins 0 9 false)).2 = false ∧ (stepOp w3st (Op.ins 0 9 false)).1 = w3st) ∧
    ((stepOp w3st (Op.ins 0 9 true)).2 = true ∧
      ∃ n : Node,
        ((Op.ins 0 9 true).isIns = true ∧
          (stepOp w3st (Op.ins 0 9 true)).1.nodes.Perm (n :: w3st.nodes)) ∨
        ((Op.ins 0 9 true).isIns = false ∧
          w3st.nodes.Perm (n :: (stepOp w3st (Op.ins 0 9 true)).1.nodes))) :=
  ⟨⟨by decide, (weak_op_atomicity w3st (Op.ins 0 9 false)).1 (by decide)⟩,
   ⟨by decide, (weak_op_atomicity w3st (Op.ins 0 9 true)).2 (by decide)⟩⟩

/-- Claim C4 — insert_after_weak makes a single compare-and-set attempt: it
fails with no change when the anchor is the end sentinel, when the anchor's
marker indicates locked, or when its one CAS loses; on success it returns
the iterator pos + 1 to the new node (which carries the inserted payload,
unlocked, right after the unchanged prefix), increments size, and leaves the
rest of the chain unchanged. -/
theorem insert_after_weak_spec (st : ListState) (pos v : Nat) (c : Bool) :
    (st.isEnd pos = true → insert_after_weak st pos v c = none) ∧
    (∀ h : pos < st.nodes.length,
      (st.nodes.get ⟨pos, h⟩).marker = true → insert_after_weak st pos v c = none) ∧
    (c = false → insert_after_weak st pos v c = none) ∧
    (∀ st' it, insert_after_weak st pos v c = some (st', it) →
      it = pos + 1 ∧ st'.size = st.size + 1 ∧
      st'.nodes.take (pos + 1) = st.nodes.take (pos + 1) ∧
      st'.nodes.drop (pos + 1) = ⟨v % uintMod, false⟩ :: st.nodes.drop (pos + 1)) := by
  refine ⟨?_, ?_, ?_, ?_⟩
  · intro hend
    have hle : st.nodes.length ≤ pos := by
      simpa [ListState.isEnd] using hend
    unfold insert_after_weak
    rw [dif_neg (by omega)]
  · intro h hm
    simp only [List.get_eq_getElem] at hm
    simp [insert_after_weak, h, hm]
  · intro hc
    subst hc
    unfold insert_after_weak
    split
    · split
      · rfl
      · simp
    · rfl
  · intro st' it h
    obtain ⟨hp, hm, hc, hst, hit⟩ := insert_after_weak_some h
    have hlt : (st.nodes.take (pos + 1)).length = pos + 1 := by
      rw [List.length_take]
      omega
    refine ⟨hit, by rw [hst], ?_, ?_⟩
    · rw [hst]
      exact List.take_left' hlt
    · rw [hst]
      exact List.drop_left' hlt

/-- Starting state for the insert_after_weak witness: unlocked head, locked
second node. -/
def w4st : ListState := ⟨[⟨1, false⟩, ⟨2, true⟩], 2⟩

/-- Witness for C4: end-sentinel anchor, locked anchor and lost CAS fail;
a winning insert at the head puts the new node at position 1 and bumps
size. -/
theorem insert_after_weak_spec_witness :
    insert_after_weak w4st 5 9 true = none ∧
    insert_after_weak w4st 1 9 true = none ∧
    insert_after_weak w4st 0 9 false = none ∧
    (1 = 0 + 1 ∧
      (⟨[⟨1, false⟩, ⟨9, false⟩, ⟨2, true⟩], 3⟩ : ListState).size = w4st.size + 1 ∧
      (⟨[⟨1, false⟩, ⟨9, false⟩, ⟨2, true⟩], 3⟩ : ListState).nodes.take (0 + 1)
        = w4st.nodes.take (0 + 1) ∧
      (⟨[⟨1, false⟩, ⟨9, false⟩, ⟨2, true⟩], 3⟩ : ListState).nodes.drop (0 + 1)
        = ⟨9 % uintMod, false⟩ :: w4st.nodes.drop (0 + 1)) :=
  ⟨(insert_after_weak_spec w4st 5 9 true).1 (by decide),
   (insert_after_weak_spec w4st 1 9 true).2.1 (by decide) (by decide),
   (insert_after_weak_spec w4st 0 9 false).2.2.1 rfl,
   (insert_after_weak_spec w4st 0 9 true).2.2.2
     ⟨[⟨1, false⟩, ⟨9, false⟩, ⟨2, true⟩], 3⟩ 1 (by decide)⟩

/-- Claim C5 — erase_after_weak makes a single compare-and-set attempt: it
fails with no change when the anchor's next reference is the end sentinel
(in particular when the anchor itself is the end sentinel), when the target
node's marker indicates locked, or when its one CAS loses; on success it
decrements size and returns the iterator pos + 1 to the node that followed
the removed one, leaving the rest of the chain unchanged. -/
theorem erase_after_weak_spec (st : ListState) (pos : Nat) (c : Bool) :
    (st.nodes.length ≤ pos + 1 → erase_after_weak st pos c = none) ∧
    (∀ h : pos + 1 < st.nodes.length,
      (st.nodes.get ⟨pos + 1, h⟩).marker = true → erase_after_weak st pos c = none) ∧
    (c = false → erase_after_weak st pos c = none) ∧
    (∀ st' it, erase_after_weak st pos c = some (st', it) →
      it = pos + 1 ∧ st'.size = st.size - 1 ∧
      st'.nodes.take (pos + 1) = st.nodes.take (pos + 1) ∧
      st'.nodes.drop (pos + 1) = st.nodes.drop (pos + 2)) := by
  refine ⟨?_, ?_, ?_, ?_⟩
  · intro hle
    unfold erase_after_weak
    split
    · rw [dif_neg (by omega)]
    · rfl
  · intro h hm
    have hpos : pos < st.nodes.length := by omega
    simp only [List.get_eq_getElem] at hm
    simp [erase_after_weak, h, hm, hpos]
  · intro hc
    subst hc
    unfold erase_after_weak
    split
    · split
      · split
        · rfl
        · simp
      · rfl
    · rfl
  · intro st' it h
    obtain ⟨hp, hpos, hm, hc, hst, hit⟩ := erase_after_weak_some h
    have hlt : (st.nodes.take (pos + 1)).length = pos + 1 := by
      rw [List.length_take]
      omega
    refine ⟨hit, by rw [hst], ?_, ?_⟩
    · rw [hst]
      exact List.take_left' hlt
    · rw [hst]
      exact List.drop_left' hlt

/-- Starting state for the erase_after_weak witness: three nodes, the last
one locked. -/
def w5st : ListState := ⟨[⟨1, false⟩, ⟨2, false⟩, ⟨3, true⟩], 3⟩

/-- Witness for C5: erasing past the end, erasing the locked target and a
lost CAS all fail; a winning erase after the head removes the middle node
and decrements size. -/
theorem erase_after_weak_spec_witness :
    erase_after_weak w5st 2 true = none ∧
    erase_after_weak w5st 1 true = none ∧
    erase_after_weak w5st 0 false = none ∧
    (1 = 0 + 1 ∧
      (⟨[⟨1, false⟩, ⟨3, true⟩], 2⟩ : ListState).size = w5st.size - 1 ∧
      (⟨[⟨1, false⟩, ⟨3, true⟩], 2⟩ : ListState).nodes.take (0 + 1)
        = w5st.nodes.take (0 + 1) ∧
      (⟨[⟨1, false⟩, ⟨3, true⟩], 2⟩ : ListState).nodes.drop (0 + 1)
        = w5st.nodes.drop (0 + 2)) :=
  ⟨(erase_after_weak_spec w5st 2 true).1 (by decide),
   (erase_after_weak_spec w5st 1 true).2.1 (by decide) (by decide),
   (erase_after_weak_spec w5st 0 false).2.2.1 rfl,
   (erase_after_weak_spec w5st 0 true).2.2.2 ⟨[⟨1, false⟩, ⟨3, true⟩], 2⟩ 1 (by decide)⟩

/-- Claim C6 — Versioned Cell exclusion: of two single compare-and-swaps
against the same cell conditioned on the same previously observed snapshot,
at most one succeeds; once the first has succeeded, the second observes the
changed cell, fails, and changes nothing. -/
theorem cell_cas_exclusion {α : Type} [DecidableEq α] (c : Cell α) (s : α × Nat) (a b : α)
    (h : (c.cas s a).2 = true) :
    ((c.cas s a).1.cas s b).2 = false ∧ ((c.cas s a).1.cas s b).1 = (c.cas s a).1 := by
  obtain ⟨heq, h1⟩ := cas_success_eq h
  have hne : (c.cas s a).1.load ≠ s := by
    rw [h1, ← heq]
    intro hcontra
    have hsnd := congrArg Prod.snd hcontra
    simp [Cell.load] at hsnd
  have h2 : (c.cas s a).1.cas s b = ((c.cas s a).1, false) := by
    rw [Cell.cas, if_neg hne]
  rw [h2]
  exact ⟨rfl, rfl⟩

/-- Witness for C6: on a concrete cell, after one winning CAS a second CAS
from the same snapshot fails and leaves the cell alone. -/
theorem cell_cas_exclusion_witness :
    ((Cell.mk (0 : Nat) 0).cas (0, 0) 1).2 = true ∧
    ((((Cell.mk (0 : Nat) 0).cas (0, 0) 1).1.cas (0, 0) 2).2 = false ∧
      (((Cell.mk (0 : Nat) 0).cas (0, 0) 1).1.cas (0, 0) 2).1
        = ((Cell.mk (0 : Nat) 0).cas (0, 0) 1).1) :=
  ⟨by decide, cell_cas_exclusion (Cell.mk 0 0) (0, 0) 1 2 (by decide)⟩

/-- Claim C7 — Stress scenario: from the harness setup (13 preinserted
values 1..13, the node at position 1 relocked with payload -1 as unsigned),
any linearized run of weak operations in which the 8 insert threads and the
8 erase threads each complete 32768 successful operations ends with
size() = 13 and with the locked element's current payload still present in
the traversal. -/
theorem stress_scenario (ops : List Op)
    (hi : succIns setupState ops = threads_size / 2 * iterationCount)
    (hd : succDel setupState ops = threads_size / 2 * iterationCount) :
    (run setupState ops).size = list_size ∧
    (⟨lockedPayload, true⟩ : Node) ∈ (run setupState ops).nodes ∧
    lockedPayload ∈ (run setupState ops).values := by
  have hs : sizeOk setupState := by decide
  have hsz : setupState.size = list_size := by decide
  obtain ⟨-, heq⟩ := run_size ops setupState hs
  have hcnt : succIns setupState ops = succDel setupState ops := by rw [hi, hd]
  have hmem : (⟨lockedPayload, true⟩ : Node) ∈ (run setupState ops).nodes :=
    run_locked_mem ops setupState ⟨lockedPayload, true⟩ rfl (by decide)
  refine ⟨by omega, hmem, ?_⟩
  simpa [ListState.values] using List.mem_map_of_mem Node.val hmem

/-- Witness for C7: the canonical schedule with 8 * 32768 successful inserts
and as many successful erases indeed ends at size 13 with the locked payload
in the traversal. -/
theorem stress_scenario_witness :
    succIns setupState (pairSeq (threads_size / 2 * iterationCount))
      = threads_size / 2 * iterationCount ∧
    succDel setupState (pairSeq (threads_size / 2 * iterationCount))
      = threads_size / 2 * iterationCount ∧
    ((run setupState (pairSeq (threads_size / 2 * iterationCount))).size = list_size ∧
      (⟨lockedPayload, true⟩ : Node)
        ∈ (run setupState (pairSeq (threads_size / 2 * iterationCount))).nodes ∧
      lockedPayload ∈ (run setupState (pairSeq (threads_size / 2 * iterationCount))).values) := by
  obtain ⟨-, hi, hd⟩ := pairSeq_facts (threads_size / 2 * iterationCount)
  exact ⟨hi, hd, stress_scenario (pairSeq (threads_size / 2 * iterationCount)) hi hd⟩

/-- Claim C8 — Single-thread baseline: on one thread, push_front of N values
followed by a traversal from begin() to the end yields exactly those N
values in reverse insertion order. -/
theorem single_thread_baseline (vs : List Nat) (hv : ∀ v ∈ vs, v < uintMod) :
    (pushAll ListState.empty vs).values = vs.reverse := by
  rw [pushAll_values]
  have hmap : vs.map (fun v => v % uintMod) = vs := by
    conv_rhs => rw [← List.map_id vs]
    exact List.map_congr_left (fun a ha => Nat.mod_eq_of_lt (hv a ha))
  simp [hmap, ListState.empty, ListState.values]

/-- Witness for C8: pushing 1, 2, 3 and traversing yields 3, 2, 1. -/
theorem single_thread_baseline_witness :
    (∀ v ∈ [1, 2, 3], v < uintMod) ∧ (pushAll ListState.empty [1, 2, 3]).values = [3, 2, 1] :=
  ⟨by decide, by simpa using single_thread_baseline [1, 2, 3] (by decide)⟩

/-- Claim C9 — Implicit harness property: the position-walk loop's guard
stops advancing as soon as the successor iterator reaches the end sentinel,
so for any random index (in the harness drawn from 0..26, possibly exceeding
the list length) the anchor passed to the weak operations is always begin()
(position 0) or a node still in the list (a position strictly below the
length) — never an iterator advanced past the end sentinel. -/
theorem walk_anchor_valid (st : ListState) (index : Nat) :
    walkAnchor st.nodes.length index = 0 ∨
      walkAnchor st.nodes.length index < st.nodes.length :=
  walkGo_valid st.nodes.length index 0 0 (Or.inl rfl)

/-- Claim C10 — the element type is unsigned int, so update(-1) stores
payload 4294967295 (-1 reduced mod 2^32) in the locked node; every value the
shared counter hands to an insertion (it starts at 1 and is fetched at most
once per preinserted element and per insert-thread iteration) is distinct
from that payload. -/
theorem locked_payload_distinct :
    lockedPayload = 4294967295 ∧
    ∀ k : Nat, k < totalFetches → counterValue k ≠ lockedPayload := by
  have hlp : lockedPayload = 4294967295 := by decide
  refine ⟨hlp, ?_⟩
  intro k hk
  have hk' : k < 262157 := by
    simpa [totalFetches, list_size, threads_size, iterationCount] using hk
  have hu : uintMod = 4294967296 := by norm_num [uintMod]
  have hlt : 1 + k < uintMod := by rw [hu]; omega
  have hcv : counterValue k = 1 + k := Nat.mod_eq_of_lt hlt
  rw [hcv, hlp]
  omega

/-- Witness for C10: the very first counter value, 1, differs from the
locked payload. -/
theorem locked_payload_distinct_witness :
    0 < totalFetches ∧ counterValue 0 ≠ lockedPayload :=
  ⟨by decide, locked_payload_distinct.2 0 (by decide)⟩

end AtomicList
